import Mathlib

/-!
Shallow embedding of the SPZ Devpack Builder (src/js/app.js) and proofs of
the frozen claims about it.

The program is a browser app that (1) collects locally dropped/uploaded
JS/CSS/HTML files, (2) scans their text for remote asset URLs with a regex
and classifies them (extractAssetsFromFiles), (3) fetches each URL and
assigns collision-free filenames (validateAndFetchAssets /
generateUniqueName), and (4) lays local files and fetched assets out into a
zip archive (the generate-button click handler).

Pure computations are translated into Lean functions on `String`s
(represented through their `List Char` data).  JavaScript's `while` loops
whose termination is not structural are given a fuel argument and return
`Option`: `none` models a non-terminating loop, and `some` results are
exactly the values the JavaScript code produces.  Fetching is modelled by an
oracle `String → FetchOutcome` giving each URL's network outcome; the
concurrent fetch completions are linearized in iteration order (all the
claims proved below are insensitive to completion order).  JavaScript `Set`s
are insertion-ordered lists without duplicates, and `Map`s are ordered
association lists.
-/

namespace SPZ

/-! ### Basic string machinery (JavaScript primitive semantics) -/

/-- The character class matched by the JavaScript regex `\s` (and removed by
`String.prototype.trim`): ASCII whitespace plus the Unicode space
characters. -/
def isJsWs (c : Char) : Bool :=
  c.toNat = 9 || c.toNat = 10 || c.toNat = 11 || c.toNat = 12 || c.toNat = 13 ||
  c.toNat = 32 || c.toNat = 160 || c.toNat = 0x1680 ||
  (0x2000 ≤ c.toNat && c.toNat ≤ 0x200A) ||
  c.toNat = 0x2028 || c.toNat = 0x2029 || c.toNat = 0x202F ||
  c.toNat = 0x205F || c.toNat = 0x3000 || c.toNat = 0xFEFF

/-- JavaScript `String.prototype.trim`. -/
def jsTrim (s : String) : String :=
  ⟨((s.data.dropWhile isJsWs).reverse.dropWhile isJsWs).reverse⟩

/-- JavaScript `s.startsWith(p)`. -/
def strStarts (s p : String) : Bool :=
  p.data.isPrefixOf s.data

/-- JavaScript `s.endsWith(p)`. -/
def strEnds (s p : String) : Bool :=
  p.data.isSuffixOf s.data

/-- JavaScript `s.includes(sub)`. -/
def containsSub (s sub : String) : Bool :=
  (List.range (s.data.length + 1)).any (fun k => sub.data.isPrefixOf (s.data.drop k))

/-- Lower-case every character (used to model the `i` regex flag and
case-insensitive suffix tests). -/
def lowerStr (s : String) : String :=
  ⟨s.data.map Char.toLower⟩

/-- JavaScript `s.split(c)[0]`: the part of `s` before the first occurrence
of `c` (all of `s` if `c` does not occur). -/
def beforeChar (c : Char) (s : String) : String :=
  ⟨s.data.takeWhile (fun x => !(x = c))⟩

/-- JavaScript `url.split('/').pop()`: the part after the last `/`
(the whole string when there is no `/`). -/
def lastSeg (s : String) : String :=
  ⟨(s.data.reverse.takeWhile (fun c => !(c = '/'))).reverse⟩

/-- JavaScript `filename.split(/[?#]/)[0]`: the part before the first `?` or
`#`. -/
def stripQFName (s : String) : String :=
  ⟨s.data.takeWhile (fun c => !(c = '?' || c = '#'))⟩

/-- JavaScript `Set.prototype.add` on an insertion-ordered set. -/
def insertSet (l : List String) (x : String) : List String :=
  if x ∈ l then l else l ++ [x]

/-! ### The URL regex of `extractAssetsFromFiles` (app.js line 190)

The source pattern, with flags `g` and `i`, is

  (?:url\(\s*['"]?|['"])?((?:https?:)?\/\/[^\s"'()]+\/[^\s"'()]+?\.
  (js|css|png|jpe?g|svg|webp|gif|mp4|webm|ogg|woff2?|ttf|otf|eot)
  (\?[^\s"'()]*)?)(?:['"]?\s*\))?

It is embedded as a backtracking matcher on `List Char`.  A sub-pattern is a
function from the input to the list of possible remainders, ordered by the
JavaScript backtracking preference (greedy quantifiers longest-first, lazy
quantifiers shortest-first, alternatives left-to-right); the first remainder
that lets the rest of the pattern succeed is the one JavaScript commits to. -/

/-- A sub-pattern: possible remainders after matching, in backtracking
preference order. -/
def Pat : Type := List Char → List (List Char)

/-- Match one character satisfying `p`. -/
def pchar (p : Char → Bool) : Pat := fun cs =>
  match cs with
  | [] => []
  | c :: rest => if p c then [rest] else []

/-- Case-insensitive match of one pattern character `p` (given in lower
case) against an input character `c`: the `i` flag makes a lower-case
letter also match its upper-case partner and leaves every other character
exact. -/
def charMatchCI (p c : Char) : Bool :=
  c = p || ('a' ≤ p && p ≤ 'z' && c.toNat + 32 = p.toNat)

/-- Match a literal sequence case-insensitively (`pat` is given in lower
case). -/
def plitCI (pat : List Char) : Pat := fun cs =>
  match pat, cs with
  | [], rest => [rest]
  | _ :: _, [] => []
  | p :: ps, c :: rest => if charMatchCI p c then plitCI ps rest else []

/-- Sequencing of sub-patterns (backtracking order preserved). -/
def pseq (a b : Pat) : Pat := fun cs => (a cs).flatMap b

/-- Ordered alternation `a|b`. -/
def palt (a b : Pat) : Pat := fun cs => a cs ++ b cs

/-- Greedy option `a?`: prefer matching `a`. -/
def popt (a : Pat) : Pat := fun cs => a cs ++ [cs]

/-- Greedy `[class]+`: one or more characters, longest first. -/
def pplusGreedy (p : Char → Bool) : Pat := fun cs =>
  let m := (cs.takeWhile p).length
  (List.range m).map (fun k => cs.drop (m - k))

/-- Lazy `[class]+?`: one or more characters, shortest first. -/
def pplusLazy (p : Char → Bool) : Pat := fun cs =>
  let m := (cs.takeWhile p).length
  (List.range m).map (fun k => cs.drop (k + 1))

/-- Greedy `[class]*`: zero or more characters, longest first. -/
def pstarGreedy (p : Char → Bool) : Pat := fun cs =>
  let m := (cs.takeWhile p).length
  (List.range (m + 1)).map (fun k => cs.drop (m - k))

/-- The character class `[^\s"'()]` of the URL regex. -/
def notDelim (c : Char) : Bool :=
  !(isJsWs c || c = '"' || c = Char.ofNat 39 || c = '(' || c = ')')

/-- A quote character, the class `['"]`. -/
def isQuote (c : Char) : Bool :=
  c = '"' || c = Char.ofNat 39

/-- The optional non-capturing prefix `(?:url\(\s*['"]?|['"])?`. -/
def preP : Pat :=
  popt (palt (pseq (plitCI "url(".data) (pseq (pstarGreedy isJsWs) (popt (pchar isQuote))))
             (pchar isQuote))

/-- The optional scheme `(?:https?:)?`. -/
def schemeP : Pat :=
  popt (pseq (plitCI "http".data) (pseq (popt (plitCI "s".data)) (plitCI ":".data)))

/-- The extension alternation of the URL regex, in source order; `jpe?g` and
`woff2?` are expanded into their two variants, longer first because the
greedy `?` quantifier prefers to match. -/
def extAltP : Pat :=
  [ "js", "css", "png", "jpeg", "jpg", "svg", "webp", "gif", "mp4", "webm",
    "ogg", "woff2", "woff", "ttf", "otf", "eot"
  ].foldr (fun e acc => palt (plitCI e.data) acc) (fun _ => [])

/-- The optional query group `(\?[^\s"'()]*)?`. -/
def queryP : Pat :=
  popt (pseq (plitCI "?".data) (pstarGreedy notDelim))

/-- Capture group 1 of the URL regex:
`(?:https?:)?\/\/[^\s"'()]+\/[^\s"'()]+?\.(ext…)(\?[^\s"'()]*)?`. -/
def groupOneP : Pat :=
  pseq schemeP (pseq (plitCI "//".data)
    (pseq (pplusGreedy notDelim) (pseq (plitCI "/".data)
      (pseq (pplusLazy notDelim) (pseq (plitCI ".".data) (pseq extAltP queryP))))))

/-- The optional non-capturing suffix `(?:['"]?\s*\))?`. -/
def sufP : Pat :=
  popt (pseq (popt (pchar isQuote)) (pseq (pstarGreedy isJsWs) (plitCI ")".data)))

/-- First success of `f` over a backtracking list. -/
def firstSome {α β : Type} (l : List α) (f : α → Option β) : Option β :=
  match l with
  | [] => none
  | a :: as => match f a with
    | some b => some b
    | none => firstSome as f

/-- Try the whole pattern at the start of `cs`; on success return the text
captured by group 1 together with the remainder after the full match.  The
first triple in backtracking preference order is the JavaScript match. -/
def matchAt (cs : List Char) : Option (List Char × List Char) :=
  firstSome (preP cs) (fun r1 =>
    firstSome (groupOneP r1) (fun r2 =>
      firstSome (sufP r2) (fun r3 =>
        some (r1.take (r1.length - r2.length), r3))))

/-- The scan loop of `matchAll` with the `g` flag: find the leftmost match,
record its group-1 capture, and continue after the full match (advancing by
one character on an empty match, which for this pattern cannot occur). -/
def scanAux : Nat → List Char → List (List Char)
  | 0, _ => []
  | fuel + 1, cs =>
    match matchAt cs with
    | some (cap, rest) =>
        cap :: scanAux fuel (if rest.length = cs.length then cs.drop 1 else rest)
    | none =>
        match cs with
        | [] => []
        | _ :: t => scanAux fuel t

/-- All group-1 captures of `text.matchAll(urlRegex)`, in order. -/
def matchAllUrls (s : String) : List String :=
  (scanAux (s.data.length + 1) s.data).map (fun l => ⟨l⟩)

/-! ### Asset extraction (`extractAssetsFromFiles`, app.js lines 176-221) -/

/-- The four inclusion checkboxes. -/
structure Flags where
  js : Bool
  css : Bool
  fonts : Bool
  images : Bool
deriving DecidableEq, Repr

/-- The `assets` object of `extractAssetsFromFiles`: one insertion-ordered
set per category, fields in the key order of the object literal. -/
structure Assets where
  images : List String
  css : List String
  js : List String
  fonts : List String
deriving DecidableEq, Repr

def Assets.empty : Assets := ⟨[], [], [], []⟩

/-- Protocol normalization (app.js line 202): a `//`-prefixed URL gets
`https:` prepended. -/
def normalizeUrl (s : String) : String :=
  if strStarts s "//" then "https:" ++ s else s

/-- The anchored case-insensitive suffix test
`\.(e₁|e₂|…)([\?#][^"')\s]*)?$` used to classify images and fonts
(app.js lines 209 and 211).  `exts` are the lower-case extensions. -/
def qTailOk (l : List Char) : Bool :=
  match l with
  | [] => true
  | c :: rest =>
      (c = '?' || c = '#') &&
      rest.all (fun x => !(x = '"' || x = Char.ofNat 39 || x = ')' || isJsWs x))

def dotExtAt (e : List Char) (suf : List Char) : Bool :=
  match suf with
  | [] => false
  | c :: rest =>
      c = '.' && (rest.take e.length).map Char.toLower = e && qTailOk (rest.drop e.length)

def extSuffixTest (exts : List String) (s : String) : Bool :=
  (List.range (s.data.length + 1)).any (fun k => exts.any (fun e => dotExtAt e.data (s.data.drop k)))

/-- The image/video classification regex of app.js line 209. -/
def testImgUrl (s : String) : Bool :=
  extSuffixTest ["png", "jpg", "jpeg", "svg", "webp", "gif", "mp4", "webm", "ogg"] s

/-- The font classification regex of app.js line 211. -/
def testFontUrl (s : String) : Bool :=
  extSuffixTest ["woff", "woff2", "ttf", "otf", "eot"] s

/-- Classification of one normalized URL (app.js lines 205-213): JS and CSS
first by case-sensitive `.ext` suffix or `.ext?` substring, then images,
then fonts, each gated by its inclusion flag. -/
def classifyAdd (inc : Flags) (a : Assets) (fullUrl : String) : Assets :=
  if (strEnds fullUrl ".js" || containsSub fullUrl ".js?") && inc.js then
    { a with js := insertSet a.js fullUrl }
  else if (strEnds fullUrl ".css" || containsSub fullUrl ".css?") && inc.css then
    { a with css := insertSet a.css fullUrl }
  else if testImgUrl fullUrl && inc.images then
    { a with images := insertSet a.images fullUrl }
  else if testFontUrl fullUrl && inc.fonts then
    { a with fonts := insertSet a.fonts fullUrl }
  else a

/-- Process one file's text: run the regex scan, then normalize and classify
each match in order. -/
def processText (inc : Flags) (a : Assets) (text : String) : Assets :=
  (matchAllUrls text).foldl (fun acc raw => classifyAdd inc acc (normalizeUrl raw)) a

/-- The function `extractAssetsFromFiles`: fold over the files' text contents.  (File
read errors skip a file; the model takes the readable texts as input.) -/
def extractAssetsFromFiles (texts : List String) (inc : Flags) : Assets :=
  texts.foldl (processText inc) Assets.empty

/-! ### Fetching and unique naming (`validateAndFetchAssets`,
app.js lines 317-383) -/

/-- Outcome of `fetch(url)`: an HTTP response with a status and a binary
body (bodies are abstracted as `Nat`), or a network-level error carrying the
thrown error's message. -/
inductive FetchOutcome where
  | response (status : Nat) (body : Nat)
  | netError (msg : String)

/-- An entry of `result.failed`. -/
structure FailedEntry where
  url : String
  type : String
  reason : String
deriving DecidableEq, Repr

/-- The mutable state of `validateAndFetchAssets`: the four `valid` maps
(insertion-ordered association lists), the `failed` list, and the shared
`assetNameTracker`. -/
structure FetchState where
  vImages : List (String × Nat)
  vFonts : List (String × Nat)
  vCss : List (String × Nat)
  vJs : List (String × Nat)
  failed : List FailedEntry
  tracker : List String
deriving DecidableEq, Repr

def FetchState.init : FetchState := ⟨[], [], [], [], [], []⟩

/-- The `while (assetNameTracker.has(name))` loop of `generateUniqueName`
(app.js lines 333-336).  `fuel` bounds the number of iterations; the
JavaScript loop terminates because the candidate names
`duplicate-1-base, duplicate-2-base, …` are pairwise distinct while the
tracker is finite, and every claim below is stated on terminating runs. -/
def findFreeAux : Nat → List String → String → String → Nat → Option String
  | 0, _, _, _, _ => none
  | fuel + 1, tracker, base, name, i =>
    if name ∈ tracker then
      findFreeAux fuel tracker base ("duplicate-" ++ Nat.repr i ++ "-" ++ base) (i + 1)
    else some name

/-- The function `generateUniqueName` (app.js lines 330-339): base name = last path
segment with query and fragment stripped; on collision prefix
`duplicate-<n>-` with `n` counting up from 1; record the result in the
tracker. -/
def generateUniqueName (tracker : List String) (url : String) :
    Option (String × List String) :=
  let base := beforeChar '#' (beforeChar '?' (lastSeg url))
  (findFreeAux (tracker.length + 2) tracker base base 1).map (fun n => (n, n :: tracker))

/-- The sequence of names assigned by successive `generateUniqueName` calls
of one fetch batch, given the successfully fetched URLs in completion
order. -/
def assignAux : List String → List String → Option (List String)
  | [], _ => some []
  | u :: us, tracker =>
    match generateUniqueName tracker u with
    | none => none
    | some (n, tr) => (assignAux us tr).map (fun ns => n :: ns)

def assignNames (urls : List String) : Option (List String) :=
  assignAux urls []

/-- Append a fetched asset to the map of its category.  `Object.entries`
over the extractor's object yields exactly the four keys below. -/
def FetchState.addValid (st : FetchState) (ty name : String) (body : Nat)
    (tr : List String) : FetchState :=
  if ty = "images" then { st with vImages := st.vImages ++ [(name, body)], tracker := tr }
  else if ty = "fonts" then { st with vFonts := st.vFonts ++ [(name, body)], tracker := tr }
  else if ty = "css" then { st with vCss := st.vCss ++ [(name, body)], tracker := tr }
  else if ty = "js" then { st with vJs := st.vJs ++ [(name, body)], tracker := tr }
  else st

def FetchState.addFailed (st : FetchState) (e : FailedEntry) : FetchState :=
  { st with failed := st.failed ++ [e] }

/-- The `then`/`catch` pair of one issued fetch (app.js lines 362-375):
`!res.ok` (status outside 200-299) throws `HTTP <status>`, caught by the
same handler as network errors and recorded in `failed`; a success names the
blob with `generateUniqueName` and stores it in the category's map. -/
def fetchStep (oracle : String → FetchOutcome) (ty url : String)
    (st : FetchState) : Option FetchState :=
  match oracle url with
  | .response status body =>
      if 200 ≤ status && status ≤ 299 then
        match generateUniqueName st.tracker url with
        | none => none
        | some (n, tr) => some (st.addValid ty n body tr)
      else some (st.addFailed ⟨url, ty, "HTTP " ++ Nat.repr status⟩)
  | .netError msg => some (st.addFailed ⟨url, ty, msg⟩)

/-- Handling of one URL (app.js lines 344-378): trim, fix `//`, reject
non-`http(s)://` URLs (the `^https?:\/\/` test is case sensitive) without a
network call, otherwise run the fetch. -/
def processUrl (oracle : String → FetchOutcome) (ty rawUrl : String)
    (st : FetchState) : Option FetchState :=
  let url0 := jsTrim rawUrl
  let url := if strStarts url0 "//" then "https:" ++ url0 else url0
  if !(strStarts url "http://" || strStarts url "https://") then
    some (st.addFailed ⟨rawUrl, ty, "Unsupported or local path"⟩)
  else fetchStep oracle ty url st

def processList (oracle : String → FetchOutcome) :
    List (String × String) → FetchState → Option FetchState
  | [], st => some st
  | (ty, u) :: rest, st =>
    match processUrl oracle ty u st with
    | none => none
    | some st2 => processList oracle rest st2

/-- The URLs of a batch with their category tags, in the iteration order of
`Object.entries(assets)` (the key order of the extractor's object). -/
def typedUrls (a : Assets) : List (String × String) :=
  a.images.map (fun u => ("images", u)) ++ a.css.map (fun u => ("css", u)) ++
  a.js.map (fun u => ("js", u)) ++ a.fonts.map (fun u => ("fonts", u))

/-- The function `validateAndFetchAssets`, with fetch completions linearized in iteration
order. -/
def validateAndFetchAssets (oracle : String → FetchOutcome) (a : Assets) :
    Option FetchState :=
  processList oracle (typedUrls a) FetchState.init

/-- All assigned filenames of a batch result, across the four categories. -/
def allNames (st : FetchState) : List String :=
  (st.vImages ++ st.vFonts ++ st.vCss ++ st.vJs).map Prod.fst

/-- Whether the oracle grants `url` an ok (2xx) response. -/
def fetchOk (oracle : String → FetchOutcome) (url : String) : Bool :=
  match oracle url with
  | .response status _ => 200 ≤ status && status ≤ 299
  | .netError _ => false

/-- Whether a raw URL leads to a successful fetch: it passes the
case-sensitive scheme guard after trimming and `//`-fixing, and the oracle
answers with an ok status. -/
def isFetchSuccess (oracle : String → FetchOutcome) (rawUrl : String) : Bool :=
  let url0 := jsTrim rawUrl
  let url := if strStarts url0 "//" then "https:" ++ url0 else url0
  (strStarts url "http://" || strStarts url "https://") && fetchOk oracle url

/-- Number of successful fetches of a batch. -/
def successCount (oracle : String → FetchOutcome) (a : Assets) : Nat :=
  (typedUrls a).countP (fun p => isFetchSuccess oracle p.2)

/-! ### Local file accumulation (`updatePreview`, app.js lines 91-111, and
the dropzone handler, lines 69-75) -/

/-- A dropped/uploaded file: the fields entering the dedup identity key. -/
structure LocalFile where
  name : String
  size : Nat
  lastModified : Nat
deriving DecidableEq, Repr

/-- The composite key `` `${f.name}-${f.size}-${f.lastModified}` ``. -/
def fileKey (f : LocalFile) : String :=
  f.name ++ "-" ++ Nat.repr f.size ++ "-" ++ Nat.repr f.lastModified

/-- The accumulation state: `collectedFiles` plus `uploadedFileSet`. -/
structure UploadState where
  collected : List LocalFile
  keySet : List String
deriving DecidableEq, Repr

def UploadState.init : UploadState := ⟨[], []⟩

/-- The function `updatePreview`: push only files whose identity key is new, recording
the key. -/
def updatePreviewAdd (st : UploadState) (newFiles : List LocalFile) : UploadState :=
  newFiles.foldl
    (fun acc f =>
      if fileKey f ∈ acc.keySet then acc
      else ⟨acc.collected ++ [f], acc.keySet ++ [fileKey f]⟩)
    st

/-- The dropzone filter `/\.(js|css|html)$/.test(f.name)` — case sensitive
and anchored at the end of the name. -/
def dropAccepts (name : String) : Bool :=
  strEnds name ".js" || strEnds name ".css" || strEnds name ".html"

/-- The `drop` listener: filter by extension, then add via `updatePreview`. -/
def handleDrop (st : UploadState) (files : List LocalFile) : UploadState :=
  updatePreviewAdd st (files.filter (fun f => dropAccepts f.name))

/-! ### Zip generation (generate-button click handler,
app.js lines 428-576) -/

/-- Local-file entries of the archive root (app.js lines 444-454).  The
source loop is

    while (fileKeyTracker.has(fileKey)) { baseName = `duplicate-${i++}-${file.name}`; }

its condition tests the identity key, which the loop body never changes, so
the loop either runs zero times or forever; `none` models the diverging
case. -/
def addLocalEntries : List LocalFile → List String → Option (List (String × LocalFile))
  | [], _ => some []
  | f :: rest, tracker =>
    if fileKey f ∈ tracker then none
    else (addLocalEntries rest (fileKey f :: tracker)).map
      (fun tail => (f.name, f) :: tail)

/-- The output filenames the local-file loop produces in the archive root. -/
def localRootNames (files : List LocalFile) : Option (List String) :=
  (addLocalEntries files []).map (fun l => l.map Prod.fst)

/-- The object `zipContent` as consumed by the zip generator: the four valid maps. -/
structure ZipContent where
  images : List (String × Nat)
  fonts : List (String × Nat)
  css : List (String × Nat)
  js : List (String × Nat)
deriving DecidableEq, Repr

/-- Case-insensitive name suffix test (the `/…$/i` regexes of the zip
generator). -/
def endsCI (s suf : String) : Bool :=
  strEnds (lowerStr s) suf

/-- The test `/\.(mp4|webm|ogg)$/i.test(filename)`. -/
def isVidName (s : String) : Bool :=
  endsCI s ".mp4" || endsCI s ".webm" || endsCI s ".ogg"

/-- The test `/\.gif$/i.test(filename)`. -/
def isGifName (s : String) : Bool :=
  endsCI s ".gif"

/-- The helper `hasAssets(type)`: `zipContent[type] && zipContent[type].size > 0`; the
keys `videos` and `gifs` do not exist on `zipContent`, so the lookup is
`undefined` and the test is false. -/
def hasAssets (zc : ZipContent) (ty : String) : Bool :=
  if ty = "images" then !zc.images.isEmpty
  else if ty = "fonts" then !zc.fonts.isEmpty
  else if ty = "css" then !zc.css.isEmpty
  else if ty = "js" then !zc.js.isEmpty
  else false

/-- Whether some entry of `zipContent.images` has a video name
(app.js lines 496-499). -/
def hasVideoEntry (zc : ZipContent) : Bool :=
  zc.images.any (fun p => isVidName p.1)

/-- Whether some entry of `zipContent.images` has a gif name
(app.js lines 517-520). -/
def hasGifEntry (zc : ZipContent) : Bool :=
  zc.images.any (fun p => isGifName p.1)

/-- The folders the zip generator creates, in creation order
(app.js lines 460-569). -/
def createdFolders (zc : ZipContent) : List String :=
  (if hasAssets zc "images" || hasAssets zc "fonts" ||
      hasAssets zc "videos" || hasAssets zc "gifs" then
    ["assets"] ++
    (if hasAssets zc "images" then ["assets/images"] else []) ++
    (if hasAssets zc "fonts" then ["assets/fonts"] else []) ++
    (if hasVideoEntry zc then ["assets/videos"] else []) ++
    (if hasGifEntry zc then ["assets/gifs"] else [])
  else []) ++
  (if hasAssets zc "js" then ["script"] else []) ++
  (if hasAssets zc "css" then ["style"] else [])

/-- The `valid.images` entries the `assets/images` loop files (the guard of
app.js line 468). -/
def imagesFolderInput (zc : ZipContent) : List (String × Nat) :=
  zc.images.filter (fun p => !(isGifName p.1 || isVidName p.1))

/-- The `valid.images` entries the `assets/videos` loop files
(app.js line 504). -/
def videosFolderInput (zc : ZipContent) : List (String × Nat) :=
  zc.images.filter (fun p => isVidName p.1)

/-- The `valid.images` entries the `assets/gifs` loop files
(app.js line 525). -/
def gifsFolderInput (zc : ZipContent) : List (String × Nat) :=
  zc.images.filter (fun p => isGifName p.1)

/-- The per-folder renaming loop shared by every asset folder
(e.g. app.js lines 543-552): strip the name at the first `?` or `#`, then
find a free name against the folder's fresh tracker with `duplicate-<n>-`
prefixes. -/
def folderEntries : List (String × Nat) → List String → Option (List (String × Nat))
  | [], _ => some []
  | (filename, blob) :: rest, tracker =>
    let base := stripQFName filename
    match findFreeAux (tracker.length + 2) tracker base base 1 with
    | none => none
    | some n => (folderEntries rest (n :: tracker)).map (fun tail => (n, blob) :: tail)

/-! ### Modal input sanitization (`validateInputs`, app.js lines 396-407,
and the folder name of the click handler, lines 429-437) -/

/-- The step `name.replace(/\s+/g, '-')`: every maximal whitespace run becomes one
hyphen.  The flag records whether the current character extends a run whose
hyphen was already emitted. -/
def collapseAux : Bool → List Char → List Char
  | _, [] => []
  | inRun, c :: rest =>
    if isJsWs c then
      if inRun then collapseAux true rest else '-' :: collapseAux true rest
    else c :: collapseAux false rest

def collapseWsRuns (cs : List Char) : List Char :=
  collapseAux false cs

/-- The class `[a-zA-Z0-9-]` kept by `replace(/[^a-zA-Z0-9-]/g, '')`. -/
def allowedChar (c : Char) : Bool :=
  ('a' ≤ c && c ≤ 'z') || ('A' ≤ c && c ≤ 'Z') || ('0' ≤ c && c ≤ '9') || c = '-'

/-- The function `validateInputs`: trim, collapse whitespace runs to hyphens, strip
disallowed characters; the result is written back to the input field. -/
def validateInputsName (s : String) : String :=
  ⟨(collapseWsRuns (jsTrim s).data).filter allowedChar⟩

/-- The archive root folder `` `${name}-devpack` `` built from the
(re-trimmed) sanitized field value. -/
def folderNameOf (s : String) : String :=
  jsTrim (validateInputsName s) ++ "-devpack"

/-! ### Operations used only to state claims (from the claims' wording,
not from the source) -/

/-- The `duplicate-<n>-` prefix shape: `duplicate-`, one or more digits,
`-`. -/
def hasDupMark (s : String) : Bool :=
  "duplicate-".data.isPrefixOf s.data &&
  (let rest := s.data.drop 10
   let ds := rest.takeWhile Char.isDigit
   !ds.isEmpty &&
   match rest.drop ds.length with
   | c :: _ => c = '-'
   | [] => false)

/-- Strip a leading `duplicate-<n>-` prefix, if present. -/
def stripDupMark (s : String) : String :=
  if "duplicate-".data.isPrefixOf s.data then
    let rest := s.data.drop 10
    let ds := rest.takeWhile Char.isDigit
    if ds.isEmpty then s
    else
      match rest.drop ds.length with
      | c :: tail => if c = '-' then ⟨tail⟩ else s
      | [] => s
  else s

/-- The final path segment of a URL, i.e. the last `/`-segment with query
string and fragment removed. -/
def urlBaseName (url : String) : String :=
  beforeChar '#' (beforeChar '?' (lastSeg url))

/-- Starts with `http://` or `https://` up to ASCII letter case. -/
def ciHttpStart (s : String) : Bool :=
  strStarts (lowerStr s) "http://" || strStarts (lowerStr s) "https://"

/-! ## Claim theorems -/

/-- C1.  The local-file loop of the zip generator does NOT resolve name
collisions between distinct identity keys: its `while` condition tests the
identity key (which never changes inside the loop), not the candidate name,
so two collected files that share a name but differ in (size, lastModified)
are both filed under the plain name.  Evaluating the embedded loop at the
failing input: the identity keys differ, yet both output filenames are
`a.js` — the spec's `duplicate-1-` renaming never happens. -/
theorem c1_local_name_collision_bug :
    fileKey ⟨"a.js", 1, 100⟩ ≠ fileKey ⟨"a.js", 2, 200⟩ ∧
    localRootNames [⟨"a.js", 1, 100⟩, ⟨"a.js", 2, 200⟩] = some ["a.js", "a.js"] ∧
    ¬ (["a.js", "a.js"] : List String).Nodup := by
  refine ⟨by decide, by decide, by decide⟩

/-- C2 counterexample.  A `valid.images` map whose only entry is a gif still
causes the `assets/images` subfolder to be created (the guard tests map
nonemptiness, not whether an entry qualifies), even though the images loop
files nothing into it. -/
theorem c2_images_folder_created_for_gif_only :
    ("assets/images" ∈ createdFolders ⟨[("a.gif", 0)], [], [], []⟩) ∧
    imagesFolderInput ⟨[("a.gif", 0)], [], [], []⟩ = [] ∧
    gifsFolderInput ⟨[("a.gif", 0)], [], [], []⟩ = [("a.gif", 0)] := by
  refine ⟨by decide, by decide, by decide⟩

/-- C6 counterexample.  For a URL whose final path segment itself begins
with `duplicate-1-`, the generated filename (no collision, so the segment
verbatim), once stripped of a `duplicate-<n>-` prefix and of query/fragment,
is `x.png` — not the URL's final path segment `duplicate-1-x.png`. -/
theorem c6_roundtrip_fails_on_dup_basename :
    assignNames ["https://a.com/p/duplicate-1-x.png"] = some ["duplicate-1-x.png"] ∧
    stripDupMark (stripQFName "duplicate-1-x.png") ≠
      urlBaseName "https://a.com/p/duplicate-1-x.png" := by
  refine ⟨by decide, by decide⟩

/-- C7.  Sanitization replaces whitespace runs by hyphens and strips every
character outside `[a-zA-Z0-9-]`: the base name `My Test #1` becomes
`My-Test-1`, and the archive root folder is `My-Test-1-devpack`. -/
theorem c7_sanitize_scenario :
    validateInputsName "My Test #1" = "My-Test-1" ∧
    folderNameOf "My Test #1" = "My-Test-1-devpack" := by
  refine ⟨by decide, by decide⟩

/-- C5.  On the input `<img src="//cdn.example.com/a/b.png">` with the
images flag true (whatever the other three flags), the extractor matches the
protocol-relative URL, normalizes the leading `//` to `https://`, and the
resulting image set is exactly
`{"https://cdn.example.com/a/b.png"}` (the other category sets stay empty). -/
theorem c5_protocol_relative_scenario :
    ∀ (bjs bcss bfonts : Bool),
      extractAssetsFromFiles ["<img src=\"//cdn.example.com/a/b.png\">"]
        ⟨bjs, bcss, bfonts, true⟩ =
      ⟨["https://cdn.example.com/a/b.png"], [], [], []⟩ := by
  intro bjs bcss bfonts
  cases bjs <;> cases bcss <;> cases bfonts <;> decide

/-- C9 counterexample.  The extractor regex carries the `i` flag, so it also
matches upper-case schemes; `HTTP://x.com/a.js` is emitted into the js set
unchanged (it does not start with `//`).  The fetcher's guard
`/^https?:\/\//` is case sensitive, so this extractor output lands in the
`Unsupported or local path` failure branch — the branch is reachable on
extractor output. -/
theorem c9_unsupported_branch_reachable :
    extractAssetsFromFiles ["HTTP://x.com/a.js"] ⟨true, true, true, true⟩ =
      ⟨[], [], ["HTTP://x.com/a.js"], []⟩ ∧
    validateAndFetchAssets (fun _ => .netError "network down")
      (extractAssetsFromFiles ["HTTP://x.com/a.js"] ⟨true, true, true, true⟩) =
      some ⟨[], [], [], [],
        [⟨"HTTP://x.com/a.js", "js", "Unsupported or local path"⟩], []⟩ := by
  refine ⟨by decide, by decide⟩

/-- Files in the accumulated list after `updatePreview` either were already
there or were part of the newly added batch. -/
theorem mem_updatePreviewAdd {l : List LocalFile} {st : UploadState} {f : LocalFile}
    (h : f ∈ (updatePreviewAdd st l).collected) : f ∈ st.collected ∨ f ∈ l := by
  induction l generalizing st with
  | nil => exact Or.inl h
  | cons a as ih =>
    have h2 : f ∈ (updatePreviewAdd (if fileKey a ∈ st.keySet then st
      else ⟨st.collected ++ [a], st.keySet ++ [fileKey a]⟩) as).collected → _ := ih
    have h2 := h2 h
    rcases h2 with hc | has
    · by_cases hk : fileKey a ∈ st.keySet
      · rw [if_pos hk] at hc
        exact Or.inl hc
      · rw [if_neg hk] at hc
        rcases List.mem_append.mp hc with h3 | h3
        · exact Or.inl h3
        · have hfa : f = a := by simpa using h3
          exact Or.inr (hfa ▸ List.mem_cons_self a as)
    · exact Or.inr (List.mem_cons_of_mem a has)

/-- C10.  The dropzone's extension filter is case sensitive and anchored at
the end of the name: a dropped file enters `collectedFiles` only when its
name ends in a lower-case `.js`, `.css` or `.html`; in particular
`STYLE.CSS` is silently ignored while `style.css` passes. -/
theorem c10_drop_filter_case_sensitive :
    (∀ (st : UploadState) (files : List LocalFile) (f : LocalFile),
        f ∈ (handleDrop st files).collected →
        f ∈ st.collected ∨ dropAccepts f.name = true) ∧
    dropAccepts "STYLE.CSS" = false ∧
    dropAccepts "style.css" = true ∧
    handleDrop UploadState.init [⟨"STYLE.CSS", 1, 1⟩] = UploadState.init := by
  refine ⟨?_, by decide, by decide, by decide⟩
  intro st files f h
  rcases mem_updatePreviewAdd h with h1 | h1
  · exact Or.inl h1
  · exact Or.inr (List.mem_filter.mp h1).2

/-- C10 witness: the general part of the claim applied to a concrete drop. -/
theorem c10_drop_filter_case_sensitive_witness :
    (⟨"a.js", 1, 1⟩ : LocalFile) ∈ UploadState.init.collected ∨
    dropAccepts "a.js" = true :=
  c10_drop_filter_case_sensitive.1 UploadState.init [⟨"a.js", 1, 1⟩] ⟨"a.js", 1, 1⟩
    (by decide)

/-- A name the collision loop returns is not in the tracker it was checked
against. -/
theorem findFreeAux_not_mem :
    ∀ {fuel : Nat} {t : List String} {b n : String} {i : Nat} {m : String},
      findFreeAux fuel t b n i = some m → m ∉ t := by
  intro fuel
  induction fuel with
  | zero => intro t b n i m h; simp [findFreeAux] at h
  | succ f ih =>
    intro t b n i m h
    simp only [findFreeAux] at h
    split at h
    · exact ih h
    · next hn =>
      cases h
      exact hn

/-- The collision loop only ever returns the base name or a
`duplicate-<j>-` decorated base name with `j ≥ 1`. -/
theorem findFreeAux_shape :
    ∀ {fuel : Nat} {t : List String} {b n : String} {i : Nat} {m : String},
      findFreeAux fuel t b n i = some m → 1 ≤ i →
      (n = b ∨ ∃ j, 1 ≤ j ∧ n = "duplicate-" ++ Nat.repr j ++ "-" ++ b) →
      (m = b ∨ ∃ j, 1 ≤ j ∧ m = "duplicate-" ++ Nat.repr j ++ "-" ++ b) := by
  intro fuel
  induction fuel with
  | zero => intro t b n i m h _ _; simp [findFreeAux] at h
  | succ f ih =>
    intro t b n i m h hi hn
    simp only [findFreeAux] at h
    split at h
    · exact ih h (Nat.le_succ_of_le hi) (Or.inr ⟨i, hi, rfl⟩)
    · cases h
      exact hn

/-- Specification of one `generateUniqueName` call. -/
theorem generateUniqueName_spec {t : List String} {u n : String} {tr : List String}
    (h : generateUniqueName t u = some (n, tr)) :
    n ∉ t ∧ tr = n :: t ∧
    (n = urlBaseName u ∨
      ∃ j, 1 ≤ j ∧ n = "duplicate-" ++ Nat.repr j ++ "-" ++ urlBaseName u) := by
  unfold generateUniqueName at h
  rcases Option.map_eq_some'.mp h with ⟨m, hm, hpair⟩
  cases hpair
  refine ⟨findFreeAux_not_mem hm, rfl, ?_⟩
  exact findFreeAux_shape hm (Nat.le_refl 1) (Or.inl rfl)

/-- Specification of the naming sequence of a fetch batch: one fresh name
per successful fetch, never colliding with the incoming tracker. -/
theorem assignAux_spec :
    ∀ {us t ns : List String}, assignAux us t = some ns →
      ns.length = us.length ∧ ns.Nodup ∧ ∀ n ∈ ns, n ∉ t := by
  intro us
  induction us with
  | nil =>
    intro t ns h
    cases h
    exact ⟨rfl, List.nodup_nil, by intro n hn; cases hn⟩
  | cons u rest ih =>
    intro t ns h
    simp only [assignAux] at h
    cases hg : generateUniqueName t u with
    | none => rw [hg] at h; cases h
    | some p =>
      obtain ⟨n0, tr0⟩ := p
      rw [hg] at h
      rcases Option.map_eq_some'.mp h with ⟨tail, htail, hns⟩
      cases hns
      obtain ⟨hfresh, htr, _⟩ := generateUniqueName_spec hg
      rw [htr] at htail
      obtain ⟨hlen, hnd, hmem⟩ := ih htail
      refine ⟨by simp [hlen], ?_, ?_⟩
      · refine List.nodup_cons.mpr ⟨?_, hnd⟩
        intro hin
        exact (hmem _ hin) (List.mem_cons_self _ _)
      · intro n hn
        rcases List.mem_cons.mp hn with h1 | h1
        · subst h1; exact hfresh
        · intro hin
          exact (hmem _ h1) (List.mem_cons_of_mem _ hin)

theorem addValid_images (st : FetchState) (n : String) (b : Nat) (tr : List String) :
    st.addValid "images" n b tr =
      { st with vImages := st.vImages ++ [(n, b)], tracker := tr } := rfl

theorem addValid_fonts (st : FetchState) (n : String) (b : Nat) (tr : List String) :
    st.addValid "fonts" n b tr =
      { st with vFonts := st.vFonts ++ [(n, b)], tracker := tr } := rfl

theorem addValid_css (st : FetchState) (n : String) (b : Nat) (tr : List String) :
    st.addValid "css" n b tr =
      { st with vCss := st.vCss ++ [(n, b)], tracker := tr } := rfl

theorem addValid_js (st : FetchState) (n : String) (b : Nat) (tr : List String) :
    st.addValid "js" n b tr =
      { st with vJs := st.vJs ++ [(n, b)], tracker := tr } := rfl

/-- Storing a named blob adds exactly that name to the batch's name list,
whatever the category. -/
theorem allNames_addValid_perm (st : FetchState) (ty n : String) (b : Nat)
    (tr : List String)
    (hty : ty = "images" ∨ ty = "fonts" ∨ ty = "css" ∨ ty = "js") :
    List.Perm (allNames (st.addValid ty n b tr)) (n :: allNames st) := by
  rcases hty with h | h | h | h <;> subst h
  · rw [addValid_images]
    simpa [allNames, List.append_assoc] using
      @List.perm_middle _ n (st.vImages.map Prod.fst)
        (st.vFonts.map Prod.fst ++ st.vCss.map Prod.fst ++ st.vJs.map Prod.fst)
  · rw [addValid_fonts]
    simpa [allNames, List.append_assoc] using
      @List.perm_middle _ n
        (st.vImages.map Prod.fst ++ st.vFonts.map Prod.fst)
        (st.vCss.map Prod.fst ++ st.vJs.map Prod.fst)
  · rw [addValid_css]
    simpa [allNames, List.append_assoc] using
      @List.perm_middle _ n
        (st.vImages.map Prod.fst ++ st.vFonts.map Prod.fst ++ st.vCss.map Prod.fst)
        (st.vJs.map Prod.fst)
  · rw [addValid_js]
    simpa [allNames, List.append_assoc] using
      @List.perm_middle _ n
        (st.vImages.map Prod.fst ++ st.vFonts.map Prod.fst ++
          st.vCss.map Prod.fst ++ st.vJs.map Prod.fst)
        ([])

theorem allNames_addValid_tracker (st : FetchState) (ty n : String) (b : Nat)
    (tr : List String)
    (hty : ty = "images" ∨ ty = "fonts" ∨ ty = "css" ∨ ty = "js") :
    (st.addValid ty n b tr).tracker = tr := by
  rcases hty with h | h | h | h <;> subst h <;> rfl

/-- The settled fetch of one URL preserves the naming invariant (all stored
names are pairwise distinct and recorded in the shared tracker) and stores
exactly one entry when the response is ok. -/
theorem fetchStep_inv {oracle : String → FetchOutcome} {ty U : String}
    {st st' : FetchState}
    (hty : ty = "images" ∨ ty = "fonts" ∨ ty = "css" ∨ ty = "js")
    (h : fetchStep oracle ty U st = some st')
    (hnd : (allNames st).Nodup)
    (htr : ∀ n ∈ allNames st, n ∈ st.tracker) :
    (allNames st').Nodup ∧ (∀ n ∈ allNames st', n ∈ st'.tracker) ∧
    (allNames st').length =
      (allNames st).length + (fetchOk oracle U).toNat := by
  simp only [fetchStep] at h
  cases horacle : oracle U with
  | response status body =>
    have hfo : fetchOk oracle U = (decide (200 ≤ status) && decide (status ≤ 299)) := by
      simp [fetchOk, horacle]
    rw [horacle] at h
    dsimp only at h
    cases hok : (decide (200 ≤ status) && decide (status ≤ 299)) with
    | false =>
      rw [hok] at h
      simp only [Bool.false_eq_true, if_false] at h
      cases h
      rw [hfo, hok]
      exact ⟨hnd, htr, by simp [FetchState.addFailed, allNames]⟩
    | true =>
      rw [hok] at h
      simp only [if_true] at h
      cases hg : generateUniqueName st.tracker U with
      | none => rw [hg] at h; cases h
      | some p =>
        obtain ⟨n0, tr0⟩ := p
        rw [hg] at h
        cases h
        obtain ⟨hfresh, htr0, _⟩ := generateUniqueName_spec hg
        subst htr0
        have hperm := allNames_addValid_perm st ty n0 body (n0 :: st.tracker) hty
        have htrk := allNames_addValid_tracker st ty n0 body (n0 :: st.tracker) hty
        rw [hfo, hok]
        refine ⟨?_, ?_, ?_⟩
        · rw [hperm.nodup_iff]
          refine List.nodup_cons.mpr ⟨?_, hnd⟩
          intro hin
          exact hfresh (htr _ hin)
        · intro n hn
          rw [htrk]
          rcases List.mem_cons.mp (hperm.mem_iff.mp hn) with h1 | h1
          · exact h1 ▸ List.mem_cons_self _ _
          · exact List.mem_cons_of_mem _ (htr _ h1)
        · rw [hperm.length_eq]
          simp
  | netError msg =>
    have hfo : fetchOk oracle U = false := by simp [fetchOk, horacle]
    rw [horacle] at h
    dsimp only at h
    cases h
    rw [hfo]
    exact ⟨hnd, htr, by simp [FetchState.addFailed, allNames]⟩

/-- One step of the fetch loop preserves the naming invariant and stores
exactly one entry per successful fetch. -/
theorem processUrl_step {oracle : String → FetchOutcome} {ty u : String}
    {st st' : FetchState}
    (hty : ty = "images" ∨ ty = "fonts" ∨ ty = "css" ∨ ty = "js")
    (h : processUrl oracle ty u st = some st')
    (hnd : (allNames st).Nodup)
    (htr : ∀ n ∈ allNames st, n ∈ st.tracker) :
    (allNames st').Nodup ∧ (∀ n ∈ allNames st', n ∈ st'.tracker) ∧
    (allNames st').length =
      (allNames st).length + (isFetchSuccess oracle u).toNat := by
  simp only [processUrl] at h
  cases hguard : (strStarts (if strStarts (jsTrim u) "//"
      then "https:" ++ jsTrim u else jsTrim u) "http://" ||
    strStarts (if strStarts (jsTrim u) "//"
      then "https:" ++ jsTrim u else jsTrim u) "https://") with
  | false =>
    have hs : isFetchSuccess oracle u = false := by
      simp only [isFetchSuccess]
      rw [hguard]
      simp
    rw [hguard] at h
    simp only [Bool.not_false, if_true] at h
    cases h
    rw [hs]
    exact ⟨hnd, htr, by simp [FetchState.addFailed, allNames]⟩
  | true =>
    have hs : isFetchSuccess oracle u =
        fetchOk oracle (if strStarts (jsTrim u) "//"
          then "https:" ++ jsTrim u else jsTrim u) := by
      simp only [isFetchSuccess]
      rw [hguard]
      simp
    rw [hguard] at h
    simp only [Bool.not_true, Bool.false_eq_true, if_false] at h
    rw [hs]
    exact fetchStep_inv hty h hnd htr

/-- Folding the fetch loop over a list of tagged URLs preserves the naming
invariant and counts one stored entry per successful fetch. -/
theorem processList_inv {oracle : String → FetchOutcome} :
    ∀ {l : List (String × String)} {st st' : FetchState},
      processList oracle l st = some st' →
      (∀ p ∈ l, p.1 = "images" ∨ p.1 = "fonts" ∨ p.1 = "css" ∨ p.1 = "js") →
      (allNames st).Nodup → (∀ n ∈ allNames st, n ∈ st.tracker) →
      (allNames st').Nodup ∧ (∀ n ∈ allNames st', n ∈ st'.tracker) ∧
      (allNames st').length =
        (allNames st).length + l.countP (fun p => isFetchSuccess oracle p.2) := by
  intro l
  induction l with
  | nil =>
    intro st st' h _ hnd htr
    cases h
    simpa using ⟨hnd, htr⟩
  | cons p rest ih =>
    intro st st' h hty hnd htr
    obtain ⟨ty, u⟩ := p
    simp only [processList] at h
    cases hstep : processUrl oracle ty u st with
    | none => rw [hstep] at h; cases h
    | some st1 =>
      rw [hstep] at h
      have h1 := processUrl_step (hty (ty, u) (List.mem_cons_self _ _)) hstep hnd htr
      have h2 := ih h (fun q hq => hty q (List.mem_cons_of_mem _ hq)) h1.1 h1.2.1
      refine ⟨h2.1, h2.2.1, ?_⟩
      rw [h2.2.2, h1.2.2, List.countP_cons]
      cases hsucc : isFetchSuccess oracle u <;> simp [hsucc] <;> omega

/-- C3.  For every terminating fetch batch, the number of stored filenames
equals the number of successful fetches, and the filenames are pairwise
distinct across all four categories, because uniqueness is enforced by the
single `assetNameTracker` shared by the whole batch (with `duplicate-<n>-`
prefixes counting up from 1 until a free name is found). -/
theorem c3_batch_names_unique :
    ∀ (oracle : String → FetchOutcome) (a : Assets) (st : FetchState),
      validateAndFetchAssets oracle a = some st →
      (allNames st).length = successCount oracle a ∧ (allNames st).Nodup := by
  intro oracle a st h
  have hty : ∀ p ∈ typedUrls a, p.1 = "images" ∨ p.1 = "fonts" ∨ p.1 = "css" ∨ p.1 = "js" := by
    intro p hp
    simp only [typedUrls, List.mem_append, List.mem_map] at hp
    rcases hp with ((⟨u, _, hu⟩ | ⟨u, _, hu⟩) | ⟨u, _, hu⟩) | ⟨u, _, hu⟩ <;>
      cases hu <;> simp
  have h0 := processList_inv h hty (by decide)
    (by intro n hn; cases hn)
  exact ⟨by simpa [successCount, allNames, FetchState.init] using h0.2.2, h0.1⟩

/-- C3 witness oracle: every URL succeeds with status 200. -/
def oracleAll200 : String → FetchOutcome := fun _ => .response 200 7

/-- C3 witness batch: an image and a script that share the base name
`logo.png`. -/
def c3Assets : Assets := ⟨["https://a.com/x/logo.png"], [], ["https://b.com/y/logo.png"], []⟩

/-- C3 witness: the theorem applied to a concrete cross-category batch in
which the shared tracker forces the second `logo.png` into
`duplicate-1-logo.png`. -/
theorem c3_batch_names_unique_witness :
    (allNames ⟨[("logo.png", 7)], [], [], [("duplicate-1-logo.png", 7)], [],
        ["duplicate-1-logo.png", "logo.png"]⟩).length =
      successCount oracleAll200 c3Assets ∧
    (allNames ⟨[("logo.png", 7)], [], [], [("duplicate-1-logo.png", 7)], [],
        ["duplicate-1-logo.png", "logo.png"]⟩).Nodup :=
  c3_batch_names_unique oracleAll200 c3Assets _ rfl

/-- A URL that starts with `https://` does not start with `//`. -/
theorem strStarts_https_not_protorel {u : String} (h : strStarts u "https://" = true) :
    strStarts u "//" = false := by
  unfold strStarts at h ⊢
  rcases List.isPrefixOf_iff_prefix.mp h with ⟨t, ht⟩
  have hd : u.data = 'h' :: ("ttps://".data ++ t) := by
    rw [← ht]
    rfl
  rw [hd]
  have h2 : "//".data = ['/', '/'] := rfl
  rw [h2]
  simp [List.isPrefixOf]

/-- C4.  For every raw URL the fetcher actually fetches — `url` is its
trimmed, `//`-normalized form and it passes the `^https?:\/\/` guard, the
code's own precondition for issuing a network call — a settled non-2xx
response is recorded in `failed` with reason `HTTP <status>` (the thrown
`Error` message) and adds nothing to the `valid` maps — `addFailed` only
appends to `failed`; a network-level error is recorded the same way with
the error's own message.  This covers `http://` and `https://` schemes,
protocol-relative and untrimmed inputs alike. -/
theorem c4_http_failure_recorded :
    ∀ (oracle : String → FetchOutcome) (ty rawUrl url : String) (st : FetchState)
      (status body : Nat) (msg : String),
      url = (if strStarts (jsTrim rawUrl) "//" then "https:" ++ jsTrim rawUrl
        else jsTrim rawUrl) →
      (strStarts url "http://" || strStarts url "https://") = true →
      (oracle url = .response status body → ¬(200 ≤ status ∧ status ≤ 299) →
        processUrl oracle ty rawUrl st =
          some (st.addFailed ⟨url, ty, "HTTP " ++ Nat.repr status⟩)) ∧
      (oracle url = .netError msg →
        processUrl oracle ty rawUrl st = some (st.addFailed ⟨url, ty, msg⟩)) := by
  intro oracle ty rawUrl url st status body msg hurl hguard
  subst hurl
  constructor
  · intro horacle hnotok
    have hok : (decide (200 ≤ status) && decide (status ≤ 299)) = false := by
      rw [Bool.and_eq_false_iff]
      simp only [decide_eq_false_iff_not]
      omega
    simp only [processUrl, hguard, Bool.not_true, Bool.false_eq_true, if_false,
      fetchStep, horacle, hok]
  · intro horacle
    simp only [processUrl, hguard, Bool.not_true, Bool.false_eq_true, if_false,
      fetchStep, horacle]

/-- C4 witness oracle: every URL yields HTTP 404. -/
def oracle404 : String → FetchOutcome := fun _ => .response 404 0

/-- C4 witness: fetching the plain-`http://` URL `http://x.com/f.js` against
the 404 oracle records the failed entry with reason `HTTP 404` and leaves
the valid maps empty. -/
theorem c4_http_failure_recorded_witness :
    processUrl oracle404 "js" "http://x.com/f.js" FetchState.init =
      some (FetchState.init.addFailed
        ⟨"http://x.com/f.js", "js", "HTTP " ++ Nat.repr 404⟩) :=
  (c4_http_failure_recorded oracle404 "js" "http://x.com/f.js" "http://x.com/f.js"
    FetchState.init 404 0 "" (by decide) (by decide)).1 rfl (by omega)

/-- A suffix determines the last character. -/
theorem strEnds_getLast? {s p : String} (h : strEnds s p = true) (hp : p.data ≠ []) :
    s.data.getLast? = p.data.getLast? := by
  unfold strEnds at h
  rcases List.isSuffixOf_iff_suffix.mp h with ⟨t, ht⟩
  rw [← ht]
  exact List.getLast?_append_of_ne_nil t hp

/-- A name cannot simultaneously have a gif extension and a video
extension. -/
theorem not_gif_and_vid (s : String) : ¬(isGifName s = true ∧ isVidName s = true) := by
  rintro ⟨hg, hv⟩
  simp only [isGifName, isVidName, endsCI] at hg hv
  have hgl := strEnds_getLast? hg (by decide)
  simp only [Bool.or_eq_true] at hv
  rcases hv with (h | h) | h <;>
    exact absurd (hgl.symm.trans (strEnds_getLast? h (by decide))) (by decide)

/-- C8.  Every entry of `valid.images` is filed into exactly one of
`assets/images`, `assets/videos`, `assets/gifs`, decided solely by the
extension of its (query/fragment-stripped) filename: `.mp4`/`.webm`/`.ogg`
to videos, `.gif` to gifs, everything else to images.  The hypothesis that
names contain no `?`/`#` holds of every name `generateUniqueName` produces,
so it covers all reachable `valid.images` maps. -/
theorem c8_image_partition :
    ∀ (zc : ZipContent) (p : String × Nat),
      (∀ q ∈ zc.images, stripQFName q.1 = q.1) →
      p ∈ zc.images →
      ((isVidName (stripQFName p.1) = true ∧ p ∈ videosFolderInput zc ∧
          p ∉ imagesFolderInput zc ∧ p ∉ gifsFolderInput zc) ∨
       (isGifName (stripQFName p.1) = true ∧ p ∈ gifsFolderInput zc ∧
          p ∉ imagesFolderInput zc ∧ p ∉ videosFolderInput zc) ∨
       (isVidName (stripQFName p.1) = false ∧ isGifName (stripQFName p.1) = false ∧
          p ∈ imagesFolderInput zc ∧ p ∉ videosFolderInput zc ∧
          p ∉ gifsFolderInput zc)) := by
  intro zc p hq hp
  rw [hq p hp]
  by_cases hv : isVidName p.1 = true
  · refine Or.inl ⟨hv, List.mem_filter.mpr ⟨hp, hv⟩, ?_, ?_⟩
    · intro hmem
      have h2 := (List.mem_filter.mp hmem).2
      simp [hv] at h2
    · intro hmem
      exact not_gif_and_vid p.1 ⟨(List.mem_filter.mp hmem).2, hv⟩
  · have hv' : isVidName p.1 = false := by
      cases h : isVidName p.1
      · rfl
      · exact absurd h hv
    by_cases hg : isGifName p.1 = true
    · refine Or.inr (Or.inl ⟨hg, List.mem_filter.mpr ⟨hp, hg⟩, ?_, ?_⟩)
      · intro hmem
        have h2 := (List.mem_filter.mp hmem).2
        simp [hg] at h2
      · intro hmem
        exact hv (List.mem_filter.mp hmem).2
    · have hg' : isGifName p.1 = false := by
        cases h : isGifName p.1
        · rfl
        · exact absurd h hg
      refine Or.inr (Or.inr ⟨hv', hg',
        List.mem_filter.mpr ⟨hp, by simp [hv', hg']⟩, ?_, ?_⟩)
      · intro hmem
        exact hv (List.mem_filter.mp hmem).2
      · intro hmem
        exact hg (List.mem_filter.mp hmem).2

/-- C8 witness map: a png, an mp4 and a gif. -/
def c8Zc : ZipContent := ⟨[("a.png", 1), ("b.mp4", 2), ("c.gif", 3)], [], [], []⟩

/-- C8 witness: the partition applied to the `b.mp4` entry. -/
theorem c8_image_partition_witness :
    ((isVidName (stripQFName "b.mp4") = true ∧ ("b.mp4", 2) ∈ videosFolderInput c8Zc ∧
        ("b.mp4", 2) ∉ imagesFolderInput c8Zc ∧ ("b.mp4", 2) ∉ gifsFolderInput c8Zc) ∨
     (isGifName (stripQFName "b.mp4") = true ∧ ("b.mp4", 2) ∈ gifsFolderInput c8Zc ∧
        ("b.mp4", 2) ∉ imagesFolderInput c8Zc ∧ ("b.mp4", 2) ∉ videosFolderInput c8Zc) ∨
     (isVidName (stripQFName "b.mp4") = false ∧ isGifName (stripQFName "b.mp4") = false ∧
        ("b.mp4", 2) ∈ imagesFolderInput c8Zc ∧ ("b.mp4", 2) ∉ videosFolderInput c8Zc ∧
        ("b.mp4", 2) ∉ gifsFolderInput c8Zc)) :=
  c8_image_partition c8Zc ("b.mp4", 2) (by decide) (by decide)

theorem hasAssets_videos (zc : ZipContent) : hasAssets zc "videos" = false := rfl

theorem hasAssets_gifs (zc : ZipContent) : hasAssets zc "gifs" = false := rfl

/-- A video-named entry lives in `zipContent.images`, so its presence makes
the images map nonempty. -/
theorem hasVideoEntry_imp_images (zc : ZipContent) (h : hasVideoEntry zc = true) :
    hasAssets zc "images" = true := by
  rcases List.any_eq_true.mp h with ⟨p, hp, _⟩
  show (!zc.images.isEmpty) = true
  cases he : zc.images with
  | nil => rw [he] at hp; cases hp
  | cons a t => rfl

/-- A gif-named entry lives in `zipContent.images`, so its presence makes
the images map nonempty. -/
theorem hasGifEntry_imp_images (zc : ZipContent) (h : hasGifEntry zc = true) :
    hasAssets zc "images" = true := by
  rcases List.any_eq_true.mp h with ⟨p, hp, _⟩
  show (!zc.images.isEmpty) = true
  cases he : zc.images with
  | nil => rw [he] at hp; cases hp
  | cons a t => rfl

/-- C2 amended.  What the zip generator actually creates: `assets/` iff the
images or fonts map is nonempty (the `videos`/`gifs` keys of `hasAssets` are
undefined and test false); `assets/images` iff the images map is nonempty —
even when every image entry is a gif or video and the folder stays empty;
`assets/fonts` iff fonts is nonempty; `assets/videos` and `assets/gifs` iff
a qualifying entry exists; `script`/`style` iff the js/css map is
nonempty. -/
theorem c2_folder_creation_characterization :
    ∀ zc : ZipContent,
      ((createdFolders zc).contains "assets" =
        (hasAssets zc "images" || hasAssets zc "fonts")) ∧
      ((createdFolders zc).contains "assets/images" = hasAssets zc "images") ∧
      ((createdFolders zc).contains "assets/fonts" = hasAssets zc "fonts") ∧
      ((createdFolders zc).contains "assets/videos" = hasVideoEntry zc) ∧
      ((createdFolders zc).contains "assets/gifs" = hasGifEntry zc) ∧
      ((createdFolders zc).contains "script" = hasAssets zc "js") ∧
      ((createdFolders zc).contains "style" = hasAssets zc "css") := by
  intro zc
  cases h1 : hasAssets zc "images" <;> cases h2 : hasAssets zc "fonts" <;>
    cases h3 : hasVideoEntry zc <;> cases h4 : hasGifEntry zc <;>
    cases h5 : hasAssets zc "js" <;> cases h6 : hasAssets zc "css" <;>
    first
      | (simp only [createdFolders, hasAssets_videos, hasAssets_gifs,
          h1, h2, h3, h4, h5, h6]
         decide)
      | exact absurd (hasVideoEntry_imp_images zc h3) (by simp [h1])
      | exact absurd (hasGifEntry_imp_images zc h4) (by simp [h1])

/-- Digits rendered by `Nat.digitChar` from values below ten are digit
characters. -/
theorem digitChar_isDigit (m : Nat) (h : m < 10) : (Nat.digitChar m).isDigit = true := by
  interval_cases m <;> decide

/-- The decimal rendering loop only prepends digit characters to its
accumulator, and prepends at least one when it has fuel. -/
theorem toDigitsCore_acc :
    ∀ (fuel n : Nat) (acc : List Char),
      ∃ l, Nat.toDigitsCore 10 fuel n acc = l ++ acc ∧
        (∀ c ∈ l, c.isDigit = true) ∧ (0 < fuel → l ≠ []) := by
  intro fuel
  induction fuel with
  | zero =>
    intro n acc
    refine ⟨[], rfl, ?_, ?_⟩
    · intro c hc
      cases hc
    · intro h0
      cases h0
  | succ f ih =>
    intro n acc
    have hd : (Nat.digitChar (n % 10)).isDigit = true :=
      digitChar_isDigit _ (Nat.mod_lt _ (by decide))
    simp only [Nat.toDigitsCore]
    split
    · refine ⟨[Nat.digitChar (n % 10)], rfl, ?_, by intro _ h; cases h⟩
      intro c hc
      rcases List.mem_singleton.mp hc with rfl
      exact hd
    · obtain ⟨l, he, hdig, _⟩ := ih (n / 10) (Nat.digitChar (n % 10) :: acc)
      refine ⟨l ++ [Nat.digitChar (n % 10)], by rw [he]; simp, ?_, by simp⟩
      intro c hc
      rcases List.mem_append.mp hc with h1 | h1
      · exact hdig c h1
      · rcases List.mem_singleton.mp h1 with rfl
        exact hd

/-- Decimal rendering by `Nat.repr` produces a nonempty all-digit string. -/
theorem repr_digits (n : Nat) :
    (∀ c ∈ (Nat.repr n).data, c.isDigit = true) ∧ (Nat.repr n).data ≠ [] := by
  obtain ⟨l, he, hdig, hne⟩ := toDigitsCore_acc (n + 1) n []
  have hrepr : (Nat.repr n).data = Nat.toDigitsCore 10 (n + 1) n [] := rfl
  rw [hrepr, he]
  simp only [List.append_nil]
  exact ⟨hdig, hne (Nat.succ_pos n)⟩

/-- A digit character is neither `?` nor `#` nor `-`. -/
theorem digit_not_qfdash (c : Char) (h : c.isDigit = true) :
    c ≠ '?' ∧ c ≠ '#' ∧ c ≠ '-' := by
  refine ⟨?_, ?_, ?_⟩ <;> intro e <;> subst e <;> simp [Char.isDigit] at h

/-- Stripping the `duplicate-<j>-` prefix recovers the base name. -/
theorem stripDupMark_dup (j : Nat) (b : String) :
    stripDupMark ("duplicate-" ++ Nat.repr j ++ "-" ++ b) = b := by
  obtain ⟨hdig, hne⟩ := repr_digits j
  have hdata : ("duplicate-" ++ Nat.repr j ++ "-" ++ b).data =
      "duplicate-".data ++ ((Nat.repr j).data ++ '-' :: b.data) := by
    simp [String.data_append]
  have hlen10 : ("duplicate-".data).length = 10 := rfl
  have hpre : "duplicate-".data.isPrefixOf
      ("duplicate-" ++ Nat.repr j ++ "-" ++ b).data = true := by
    rw [hdata]
    exact List.isPrefixOf_iff_prefix.mpr ⟨_, rfl⟩
  have hdrop : ("duplicate-" ++ Nat.repr j ++ "-" ++ b).data.drop 10 =
      (Nat.repr j).data ++ '-' :: b.data := by
    rw [hdata, ← hlen10, List.drop_left]
  have htake : ((Nat.repr j).data ++ '-' :: b.data).takeWhile Char.isDigit =
      (Nat.repr j).data := by
    rw [List.takeWhile_append_of_pos hdig]
    simp [List.takeWhile_cons]
  have hdrop2 : ((Nat.repr j).data ++ '-' :: b.data).drop
      ((Nat.repr j).data).length = '-' :: b.data := List.drop_left _ _
  simp only [stripDupMark, hpre, if_true, hdrop, htake, hdrop2]
  cases hr : (Nat.repr j).data with
  | nil => exact absurd hr hne
  | cons c cs => simp

/-- When the `duplicate-<n>-` shape is absent, stripping is the identity. -/
theorem stripDupMark_of_not {s : String} (h : hasDupMark s = false) :
    stripDupMark s = s := by
  simp only [hasDupMark, Bool.and_eq_false_iff] at h
  simp only [stripDupMark]
  cases hA : "duplicate-".data.isPrefixOf s.data with
  | false => simp
  | true =>
    rcases h with h | h
    · rw [hA] at h; cases h
    · simp only [hA, if_true]
      cases hE : ((s.data.drop 10).takeWhile Char.isDigit).isEmpty with
      | true => simp [hE]
      | false =>
        rcases h with h | h
        · rw [hE] at h; cases h
        · simp only [hE, Bool.false_eq_true, if_false]
          cases hM : (s.data.drop 10).drop
              ((s.data.drop 10).takeWhile Char.isDigit).length with
          | nil => simp [hM]
          | cons c tail =>
            rw [hM] at h
            have hc : c ≠ '-' := by simpa using h
            simp [hM, hc]

/-- Strings without `?`/`#` are unchanged by query/fragment stripping. -/
theorem stripQFName_eq_self {x : String}
    (h : ∀ c ∈ x.data, (!(c = '?' || c = '#')) = true) : stripQFName x = x := by
  have h2 : x.data.takeWhile (fun c => !(c = '?' || c = '#')) = x.data :=
    List.takeWhile_eq_self_iff.mpr h
  show (⟨x.data.takeWhile (fun c => !(c = '?' || c = '#'))⟩ : String) = x
  rw [h2]

/-- The final path segment of a URL contains no `?` or `#`. -/
theorem urlBaseName_no_qf (u : String) :
    ∀ c ∈ (urlBaseName u).data, (!(c = '?' || c = '#')) = true := by
  intro c hc
  have hcd : c ∈ ((beforeChar '?' (lastSeg u)).data).takeWhile
      (fun x => !(x = '#')) := hc
  have hh := List.mem_takeWhile_imp (p := fun x => !(x = '#')) hcd
  have hmem : c ∈ (beforeChar '?' (lastSeg u)).data :=
    ( List.takeWhile_prefix (fun x => !(x = '#'))).subset hcd
  have hcd2 : c ∈ ((lastSeg u).data).takeWhile (fun x => !(x = '?')) := hmem
  have hq := List.mem_takeWhile_imp (p := fun x => !(x = '?')) hcd2
  simp only [Bool.not_eq_true', decide_eq_false_iff_not] at hh hq
  simp [hh, hq]

/-- A `duplicate-<j>-` decorated base name contains no `?` or `#` when the
base name does not. -/
theorem dupName_no_qf (j : Nat) (b : String)
    (hb : ∀ c ∈ b.data, (!(c = '?' || c = '#')) = true) :
    ∀ c ∈ ("duplicate-" ++ Nat.repr j ++ "-" ++ b).data,
      (!(c = '?' || c = '#')) = true := by
  intro c hc
  have hdata : ("duplicate-" ++ Nat.repr j ++ "-" ++ b).data =
      "duplicate-".data ++ ((Nat.repr j).data ++ '-' :: b.data) := by
    simp [String.data_append]
  rw [hdata] at hc
  rcases List.mem_append.mp hc with h1 | h1
  · have hlit : ∀ x ∈ "duplicate-".data, (!(x = '?' || x = '#')) = true := by decide
    exact hlit c h1
  · rcases List.mem_append.mp h1 with h2 | h2
    · obtain ⟨hq, hh, _⟩ := digit_not_qfdash c ((repr_digits j).1 c h2)
      simp [hq, hh]
    · rcases List.mem_cons.mp h2 with rfl | h3
      · decide
      · exact hb c h3

/-- Each assigned name of a batch is the corresponding URL's base name,
optionally decorated with one `duplicate-<j>-` prefix. -/
theorem assignAux_get :
    ∀ {us t ns : List String}, assignAux us t = some ns →
      ∀ (k : Nat) (hk : k < us.length) (hk2 : k < ns.length),
        ns.get ⟨k, hk2⟩ = urlBaseName (us.get ⟨k, hk⟩) ∨
        ∃ j, 1 ≤ j ∧
          ns.get ⟨k, hk2⟩ =
            "duplicate-" ++ Nat.repr j ++ "-" ++ urlBaseName (us.get ⟨k, hk⟩) := by
  intro us
  induction us with
  | nil =>
    intro t ns _ k hk _
    exact absurd hk (Nat.not_lt_zero k)
  | cons u rest ih =>
    intro t ns h k hk hk2
    simp only [assignAux] at h
    cases hg : generateUniqueName t u with
    | none => rw [hg] at h; cases h
    | some p =>
      obtain ⟨n0, tr0⟩ := p
      rw [hg] at h
      rcases Option.map_eq_some'.mp h with ⟨tail, htail, hns⟩
      cases hns
      cases k with
      | zero => exact (generateUniqueName_spec hg).2.2
      | succ k =>
        exact ih htail k (Nat.lt_of_succ_lt_succ hk) (Nat.lt_of_succ_lt_succ hk2)

/-- C6 amended.  For every successfully fetched URL whose final path segment
does not itself begin with a `duplicate-<n>-` prefix, the generated
filename, stripped of any `duplicate-<n>-` prefix and of any query string
and fragment, equals the URL's final path segment.  (The proviso is forced:
a URL ending in `duplicate-1-x.png` is named verbatim, and stripping then
yields `x.png`.) -/
theorem c6_roundtrip_amended :
    ∀ (urls names : List String) (k : Nat) (hk : k < urls.length),
      assignNames urls = some names →
      hasDupMark (urlBaseName (urls.get ⟨k, hk⟩)) = false →
      ∃ hk2 : k < names.length,
        stripDupMark (stripQFName (names.get ⟨k, hk2⟩)) =
          urlBaseName (urls.get ⟨k, hk⟩) := by
  intro urls names k hk h hmark
  have hlen := (assignAux_spec h).1
  have hk2 : k < names.length := by rw [hlen]; exact hk
  refine ⟨hk2, ?_⟩
  rcases assignAux_get h k hk hk2 with hb | ⟨j, _, hdup⟩
  · rw [hb, stripQFName_eq_self (urlBaseName_no_qf _), stripDupMark_of_not hmark]
  · rw [hdup, stripQFName_eq_self (dupName_no_qf j _ (urlBaseName_no_qf _)),
      stripDupMark_dup]

/-- C6 witness: the amended round trip at the second URL of a colliding
batch, whose generated name is `duplicate-1-logo.png`. -/
theorem c6_roundtrip_amended_witness :
    ∃ hk2 : 1 < (["logo.png", "duplicate-1-logo.png"] : List String).length,
      stripDupMark (stripQFName ((["logo.png", "duplicate-1-logo.png"] :
          List String).get ⟨1, hk2⟩)) =
        urlBaseName ((["https://a.com/x/logo.png?v=1", "https://b.com/y/logo.png"] :
          List String).get ⟨1, by decide⟩) :=
  c6_roundtrip_amended ["https://a.com/x/logo.png?v=1", "https://b.com/y/logo.png"]
    ["logo.png", "duplicate-1-logo.png"] 1 (by decide) (by decide) (by decide)

/-! ### Lemmas about the regex matcher, for the scheme-prefix property of
every extracted URL -/

theorem popt_mem {a : Pat} {cs r : List Char} (h : r ∈ popt a cs) :
    r ∈ a cs ∨ r = cs := by
  rcases List.mem_append.mp h with h1 | h1
  · exact Or.inl h1
  · exact Or.inr (List.mem_singleton.mp h1)

theorem palt_mem {a b : Pat} {cs r : List Char} (h : r ∈ palt a b cs) :
    r ∈ a cs ∨ r ∈ b cs :=
  List.mem_append.mp h

theorem pseq_mem {a b : Pat} {cs r : List Char} (h : r ∈ pseq a b cs) :
    ∃ mid, mid ∈ a cs ∧ r ∈ b mid :=
  List.mem_flatMap.mp h

theorem pchar_suffix {p : Char → Bool} {cs r : List Char} (h : r ∈ pchar p cs) :
    r <:+ cs := by
  cases cs with
  | nil => simp [pchar] at h
  | cons c rest =>
    simp only [pchar] at h
    split at h
    · rcases List.mem_singleton.mp h with rfl
      exact List.suffix_cons _ _
    · cases h

theorem plitCI_suffix : ∀ (pat : List Char) {cs r : List Char},
    r ∈ plitCI pat cs → r <:+ cs := by
  intro pat
  induction pat with
  | nil =>
    intro cs r h
    rcases List.mem_singleton.mp h with rfl
    exact List.suffix_refl _
  | cons p ps ih =>
    intro cs r h
    cases cs with
    | nil => cases h
    | cons c rest =>
      simp only [plitCI] at h
      split at h
      · exact (ih h).trans (List.suffix_cons c rest)
      · cases h

theorem pplusGreedy_suffix {p : Char → Bool} {cs r : List Char}
    (h : r ∈ pplusGreedy p cs) : r <:+ cs := by
  simp only [pplusGreedy, List.mem_map] at h
  rcases h with ⟨k, _, rfl⟩
  exact List.drop_suffix _ _

theorem pplusLazy_suffix {p : Char → Bool} {cs r : List Char}
    (h : r ∈ pplusLazy p cs) : r <:+ cs := by
  simp only [pplusLazy, List.mem_map] at h
  rcases h with ⟨k, _, rfl⟩
  exact List.drop_suffix _ _

theorem pstarGreedy_suffix {p : Char → Bool} {cs r : List Char}
    (h : r ∈ pstarGreedy p cs) : r <:+ cs := by
  simp only [pstarGreedy, List.mem_map] at h
  rcases h with ⟨k, _, rfl⟩
  exact List.drop_suffix _ _

theorem foldr_palt_suffix (es : List String) : ∀ {cs r : List Char},
    r ∈ (es.foldr (fun e acc => palt (plitCI e.data) acc) (fun _ => [])) cs →
    r <:+ cs := by
  induction es with
  | nil => intro cs r h; cases h
  | cons e rest ih =>
    intro cs r h
    rcases palt_mem h with h1 | h1
    · exact plitCI_suffix _ h1
    · exact ih h1

theorem extAltP_suffix {cs r : List Char} (h : r ∈ extAltP cs) : r <:+ cs :=
  foldr_palt_suffix _ h

theorem queryP_suffix {cs r : List Char} (h : r ∈ queryP cs) : r <:+ cs := by
  rcases popt_mem h with h1 | rfl
  · obtain ⟨m, hm, h2⟩ := pseq_mem h1
    exact (pstarGreedy_suffix h2).trans (plitCI_suffix _ hm)
  · exact List.suffix_refl _

/-- The part of group 1 after the mandatory `//` only consumes characters:
its result is a suffix of its input. -/
theorem groupTail_suffix {cs r : List Char}
    (h : r ∈ (pseq (pplusGreedy notDelim) (pseq (plitCI "/".data)
      (pseq (pplusLazy notDelim) (pseq (plitCI ".".data)
        (pseq extAltP queryP))))) cs) : r <:+ cs := by
  obtain ⟨m1, h1, h⟩ := pseq_mem h
  obtain ⟨m2, h2, h⟩ := pseq_mem h
  obtain ⟨m3, h3, h⟩ := pseq_mem h
  obtain ⟨m4, h4, h⟩ := pseq_mem h
  obtain ⟨m5, h5, h6⟩ := pseq_mem h
  exact ((((((queryP_suffix h6).trans (extAltP_suffix h5)).trans
    (plitCI_suffix _ h4)).trans (pplusLazy_suffix h3)).trans
    (plitCI_suffix _ h2)).trans (pplusGreedy_suffix h1))

/-- Characters consumed by a case-insensitive literal, positionally related
to the pattern. -/
theorem plitCI_decomp : ∀ (pat : List Char) {cs r : List Char},
    r ∈ plitCI pat cs →
    ∃ pre, cs = pre ++ r ∧
      List.Forall₂ (fun p c => charMatchCI p c = true) pat pre := by
  intro pat
  induction pat with
  | nil =>
    intro cs r h
    rcases List.mem_singleton.mp h with rfl
    exact ⟨[], rfl, List.Forall₂.nil⟩
  | cons p ps ih =>
    intro cs r h
    cases cs with
    | nil => cases h
    | cons c rest =>
      simp only [plitCI] at h
      split at h
      · next hcm =>
        obtain ⟨pre, hrest, hf⟩ := ih h
        exact ⟨c :: pre, by rw [hrest]; rfl, List.Forall₂.cons hcm hf⟩
      · cases h

/-- For the scheme characters of the URL pattern, a case-insensitive match
pins the lower-case of the input character. -/
theorem charMatchCI_toLower {p c : Char}
    (hp : p = 'h' ∨ p = 't' ∨ p = 'p' ∨ p = 's' ∨ p = ':' ∨ p = '/')
    (h : charMatchCI p c = true) : c.toLower = p := by
  simp only [charMatchCI, Bool.or_eq_true, Bool.and_eq_true, decide_eq_true_eq] at h
  rcases h with h | ⟨⟨hlo, _⟩, hnat⟩
  · subst h
    rcases hp with rfl | rfl | rfl | rfl | rfl | rfl <;> decide
  · rcases hp with rfl | rfl | rfl | rfl | rfl | rfl
    · have hc : c.toNat = 72 := by
        have hh : ('h').toNat = 104 := rfl
        omega
      unfold Char.toLower
      rw [hc, if_pos (by decide)]
    · have hc : c.toNat = 84 := by
        have hh : ('t').toNat = 116 := rfl
        omega
      unfold Char.toLower
      rw [hc, if_pos (by decide)]
    · have hc : c.toNat = 80 := by
        have hh : ('p').toNat = 112 := rfl
        omega
      unfold Char.toLower
      rw [hc, if_pos (by decide)]
    · have hc : c.toNat = 83 := by
        have hh : ('s').toNat = 115 := rfl
        omega
      unfold Char.toLower
      rw [hc, if_pos (by decide)]
    · exact absurd hlo (by decide)
    · exact absurd hlo (by decide)

/-- A case-insensitive match against `/` is exact. -/
theorem charMatchCI_slash {c : Char} (h : charMatchCI '/' c = true) : c = '/' := by
  simp only [charMatchCI, Bool.or_eq_true, Bool.and_eq_true, decide_eq_true_eq] at h
  rcases h with h | ⟨⟨hlo, _⟩, _⟩
  · exact h
  · exact absurd hlo (by decide)

/-- Characters pinned by a scheme-character pattern lower to the pattern. -/
theorem forall2_map_toLower {pat pre : List Char}
    (hp : ∀ p ∈ pat, p = 'h' ∨ p = 't' ∨ p = 'p' ∨ p = 's' ∨ p = ':' ∨ p = '/')
    (hf : List.Forall₂ (fun p c => charMatchCI p c = true) pat pre) :
    pre.map Char.toLower = pat := by
  induction hf with
  | nil => rfl
  | @cons p c pat2 pre2 hrel _ ih =>
    have h1 := charMatchCI_toLower (hp p (List.mem_cons_self _ _)) hrel
    have h2 := ih (fun q hq => hp q (List.mem_cons_of_mem _ hq))
    simp [h1, h2]

/-- Decomposition of the optional scheme: it consumes nothing, or a case
variant of `http:` or `https:`. -/
theorem schemeP_decomp {cs r : List Char} (h : r ∈ schemeP cs) :
    ∃ pre, cs = pre ++ r ∧
      (pre = [] ∨ pre.map Char.toLower = "http:".data ∨
       pre.map Char.toLower = "https:".data) := by
  rcases popt_mem h with h | rfl
  · obtain ⟨m1, h1, h2⟩ := pseq_mem h
    obtain ⟨m2, h2, h3⟩ := pseq_mem h2
    obtain ⟨p1, hcs, hf1⟩ := plitCI_decomp _ h1
    obtain ⟨p3, hm2, hf3⟩ := plitCI_decomp _ h3
    have hl1 : p1.map Char.toLower = "http".data :=
      forall2_map_toLower (by decide) hf1
    have hl3 : p3.map Char.toLower = ":".data :=
      forall2_map_toLower (by decide) hf3
    rcases popt_mem h2 with h2' | rfl
    · obtain ⟨p2, hm1, hf2⟩ := plitCI_decomp _ h2'
      have hl2 : p2.map Char.toLower = "s".data :=
        forall2_map_toLower (by decide) hf2
      refine ⟨p1 ++ p2 ++ p3, ?_, Or.inr (Or.inr ?_)⟩
      · rw [hcs, hm1, hm2]
        simp [List.append_assoc]
      · rw [List.map_append, List.map_append, hl1, hl2, hl3]
        rfl
    · refine ⟨p1 ++ p3, ?_, Or.inr (Or.inl ?_)⟩
      · rw [hcs, hm2]
        simp [List.append_assoc]
      · rw [List.map_append, hl1, hl3]
        rfl
  · exact ⟨[], rfl, Or.inl rfl⟩

/-- Decomposition of group 1: an optional case variant of a scheme, the
literal `//`, and consumed tail characters, followed by the remainder. -/
theorem groupOneP_capture {r1 r2 : List Char} (h : r2 ∈ groupOneP r1) :
    ∃ pre mid, r1 = pre ++ '/' :: '/' :: (mid ++ r2) ∧
      (pre = [] ∨ pre.map Char.toLower = "http:".data ∨
       pre.map Char.toLower = "https:".data) := by
  obtain ⟨m1, h1, h2⟩ := pseq_mem h
  obtain ⟨m2, h2, h3⟩ := pseq_mem h2
  obtain ⟨pre, hcs, hpre⟩ := schemeP_decomp h1
  obtain ⟨pp, hm1, hf⟩ := plitCI_decomp _ h2
  have hpp : pp = ['/', '/'] := by
    cases hf with
    | cons hc1 htail =>
      cases htail with
      | cons hc2 htail2 =>
        cases htail2
        rw [charMatchCI_slash hc1, charMatchCI_slash hc2]
  obtain ⟨mid, hmid⟩ := groupTail_suffix h3
  refine ⟨pre, mid, ?_, hpre⟩
  rw [hcs, hm1, hpp, ← hmid]
  rfl

/-- A capture made of an optional scheme variant, `//`, and arbitrary tail
characters starts, after protocol normalization, with `http://` or
`https://` up to letter case. -/
theorem ciHttpStart_parts {pre mid : List Char}
    (hpre : pre = [] ∨ pre.map Char.toLower = "http:".data ∨
      pre.map Char.toLower = "https:".data) :
    ciHttpStart (normalizeUrl ⟨pre ++ '/' :: '/' :: mid⟩) = true := by
  have hsl : ('/').toLower = '/' := rfl
  rcases hpre with rfl | hl | hl
  · have hs : strStarts ⟨('/' :: '/' :: mid : List Char)⟩ "//" = true := by
      show ("//".data).isPrefixOf ('/' :: '/' :: mid) = true
      have h2 : "//".data = ['/', '/'] := rfl
      rw [h2]
      simp [List.isPrefixOf]
    simp only [List.nil_append, normalizeUrl, hs, if_true]
    simp only [ciHttpStart, Bool.or_eq_true]
    refine Or.inr ?_
    show ("https://".data).isPrefixOf (lowerStr ("https:" ++ ⟨'/' :: '/' :: mid⟩)).data = true
    have hdata : (lowerStr ("https:" ++ ⟨'/' :: '/' :: mid⟩)).data =
        "https:".data ++ '/' :: '/' :: mid.map Char.toLower := by
      simp [lowerStr, String.data_append, hsl]
    rw [hdata]
    exact List.isPrefixOf_iff_prefix.mpr ⟨mid.map Char.toLower, rfl⟩
  · cases pre with
    | nil => simp at hl
    | cons c1 p1 =>
      simp only [List.map_cons] at hl
      have h1 : c1.toLower = 'h' := by
        have := congrArg (fun l => l.headI) hl
        simpa using this
      have hp1 : p1.map Char.toLower = "ttp:".data := by
        have := congrArg List.tail hl
        simpa using this
      have hneq : ('/' == c1) = false := by
        rw [beq_eq_false_iff_ne]
        intro e
        rw [← e] at h1
        exact absurd (hsl.symm.trans h1) (by decide)
      have hs : strStarts ⟨c1 :: (p1 ++ '/' :: '/' :: mid)⟩ "//" = false := by
        show ("//".data).isPrefixOf (c1 :: (p1 ++ '/' :: '/' :: mid)) = false
        have h2 : "//".data = ['/', '/'] := rfl
        rw [h2]
        simp [List.isPrefixOf, hneq]
      simp only [List.cons_append, normalizeUrl, hs, Bool.false_eq_true, if_false]
      simp only [ciHttpStart, Bool.or_eq_true]
      refine Or.inl ?_
      show ("http://".data).isPrefixOf
        (lowerStr ⟨c1 :: (p1 ++ '/' :: '/' :: mid)⟩).data = true
      have hdata : (lowerStr ⟨c1 :: (p1 ++ '/' :: '/' :: mid)⟩).data =
          'h' :: ("ttp:".data ++ '/' :: '/' :: mid.map Char.toLower) := by
        simp [lowerStr, h1, hp1, hsl]
      rw [hdata]
      exact List.isPrefixOf_iff_prefix.mpr ⟨mid.map Char.toLower, rfl⟩
  · cases pre with
    | nil => simp at hl
    | cons c1 p1 =>
      simp only [List.map_cons] at hl
      have h1 : c1.toLower = 'h' := by
        have := congrArg (fun l => l.headI) hl
        simpa using this
      have hp1 : p1.map Char.toLower = "ttps:".data := by
        have := congrArg List.tail hl
        simpa using this
      have hneq : ('/' == c1) = false := by
        rw [beq_eq_false_iff_ne]
        intro e
        rw [← e] at h1
        exact absurd (hsl.symm.trans h1) (by decide)
      have hs : strStarts ⟨c1 :: (p1 ++ '/' :: '/' :: mid)⟩ "//" = false := by
        show ("//".data).isPrefixOf (c1 :: (p1 ++ '/' :: '/' :: mid)) = false
        have h2 : "//".data = ['/', '/'] := rfl
        rw [h2]
        simp [List.isPrefixOf, hneq]
      simp only [List.cons_append, normalizeUrl, hs, Bool.false_eq_true, if_false]
      simp only [ciHttpStart, Bool.or_eq_true]
      refine Or.inr ?_
      show ("https://".data).isPrefixOf
        (lowerStr ⟨c1 :: (p1 ++ '/' :: '/' :: mid)⟩).data = true
      have hdata : (lowerStr ⟨c1 :: (p1 ++ '/' :: '/' :: mid)⟩).data =
          'h' :: ("ttps:".data ++ '/' :: '/' :: mid.map Char.toLower) := by
        simp [lowerStr, h1, hp1, hsl]
      rw [hdata]
      exact List.isPrefixOf_iff_prefix.mpr ⟨mid.map Char.toLower, rfl⟩

theorem firstSome_eq_some {α β : Type} :
    ∀ {l : List α} {f : α → Option β} {b : β},
      firstSome l f = some b → ∃ a ∈ l, f a = some b := by
  intro l
  induction l with
  | nil =>
    intro f b h
    simp [firstSome] at h
  | cons a as ih =>
    intro f b h
    simp only [firstSome] at h
    cases hf : f a with
    | some b2 =>
      rw [hf] at h
      cases h
      exact ⟨a, List.mem_cons_self _ _, hf⟩
    | none =>
      rw [hf] at h
      obtain ⟨a2, ha2, hfa⟩ := ih h
      exact ⟨a2, List.mem_cons_of_mem _ ha2, hfa⟩

/-- Every group-1 capture of the URL regex starts, after normalization, with
a case variant of `http://` or `https://`. -/
theorem matchAt_capture {cs cap rest : List Char}
    (h : matchAt cs = some (cap, rest)) :
    ciHttpStart (normalizeUrl ⟨cap⟩) = true := by
  unfold matchAt at h
  obtain ⟨r1, _, h1⟩ := firstSome_eq_some h
  obtain ⟨r2, hr2, h2⟩ := firstSome_eq_some h1
  obtain ⟨r3, _, h3⟩ := firstSome_eq_some h2
  cases h3
  obtain ⟨pre, mid, hr1, hpre⟩ := groupOneP_capture hr2
  have hX : r1 = (pre ++ '/' :: '/' :: mid) ++ r2 := by
    rw [hr1]
    simp [List.append_assoc]
  have hlen : r1.length - r2.length = (pre ++ '/' :: '/' :: mid).length := by
    rw [hX]
    simp
    omega
  have hcap : r1.take (r1.length - r2.length) = pre ++ '/' :: '/' :: mid := by
    rw [hlen, hX, List.take_left]
  rw [hcap]
  exact ciHttpStart_parts hpre

/-- Every capture the scan loop yields comes from a successful `matchAt`. -/
theorem scanAux_capture :
    ∀ {fuel : Nat} {cs cap : List Char}, cap ∈ scanAux fuel cs →
      ∃ cs2 rest, matchAt cs2 = some (cap, rest) := by
  intro fuel
  induction fuel with
  | zero => intro cs cap h; cases h
  | succ f ih =>
    intro cs cap h
    simp only [scanAux] at h
    cases hm : matchAt cs with
    | some p =>
      obtain ⟨c0, r0⟩ := p
      rw [hm] at h
      rcases List.mem_cons.mp h with rfl | h2
      · exact ⟨cs, r0, hm⟩
      · exact ih h2
    | none =>
      rw [hm] at h
      cases cs with
      | nil => cases h
      | cons c t => exact ih h

/-- Set insertion only adds the given element. -/
theorem mem_insertSet {l : List String} {x u : String} (h : u ∈ insertSet l x) :
    u ∈ l ∨ u = x := by
  unfold insertSet at h
  split at h
  · exact Or.inl h
  · rcases List.mem_append.mp h with h1 | h1
    · exact Or.inl h1
    · exact Or.inr (List.mem_singleton.mp h1)

/-- Classification only adds the URL it was given. -/
theorem classifyAdd_sub {inc : Flags} {a : Assets} {x u : String}
    (h : u ∈ (classifyAdd inc a x).js ++ (classifyAdd inc a x).css ++
      (classifyAdd inc a x).images ++ (classifyAdd inc a x).fonts) :
    u ∈ a.js ++ a.css ++ a.images ++ a.fonts ∨ u = x := by
  unfold classifyAdd at h
  split at h
  · simp only [List.mem_append] at h ⊢
    rcases h with ((h | h) | h) | h
    · rcases mem_insertSet h with h2 | h2
      · exact Or.inl (Or.inl (Or.inl (Or.inl h2)))
      · exact Or.inr h2
    · exact Or.inl (Or.inl (Or.inl (Or.inr h)))
    · exact Or.inl (Or.inl (Or.inr h))
    · exact Or.inl (Or.inr h)
  · split at h
    · simp only [List.mem_append] at h ⊢
      rcases h with ((h | h) | h) | h
      · exact Or.inl (Or.inl (Or.inl (Or.inl h)))
      · rcases mem_insertSet h with h2 | h2
        · exact Or.inl (Or.inl (Or.inl (Or.inr h2)))
        · exact Or.inr h2
      · exact Or.inl (Or.inl (Or.inr h))
      · exact Or.inl (Or.inr h)
    · split at h
      · simp only [List.mem_append] at h ⊢
        rcases h with ((h | h) | h) | h
        · exact Or.inl (Or.inl (Or.inl (Or.inl h)))
        · exact Or.inl (Or.inl (Or.inl (Or.inr h)))
        · rcases mem_insertSet h with h2 | h2
          · exact Or.inl (Or.inl (Or.inr h2))
          · exact Or.inr h2
        · exact Or.inl (Or.inr h)
      · split at h
        · simp only [List.mem_append] at h ⊢
          rcases h with ((h | h) | h) | h
          · exact Or.inl (Or.inl (Or.inl (Or.inl h)))
          · exact Or.inl (Or.inl (Or.inl (Or.inr h)))
          · exact Or.inl (Or.inl (Or.inr h))
          · rcases mem_insertSet h with h2 | h2
            · exact Or.inl (Or.inr h2)
            · exact Or.inr h2
        · exact Or.inl h

/-- Folding classification over normalized captures preserves the
scheme-prefix property. -/
theorem foldl_classify_ci {inc : Flags} :
    ∀ (l : List String) (a : Assets),
      (∀ u, u ∈ a.js ++ a.css ++ a.images ++ a.fonts → ciHttpStart u = true) →
      (∀ raw ∈ l, ciHttpStart (normalizeUrl raw) = true) →
      ∀ u, u ∈ (l.foldl (fun acc raw => classifyAdd inc acc (normalizeUrl raw)) a).js ++
        (l.foldl (fun acc raw => classifyAdd inc acc (normalizeUrl raw)) a).css ++
        (l.foldl (fun acc raw => classifyAdd inc acc (normalizeUrl raw)) a).images ++
        (l.foldl (fun acc raw => classifyAdd inc acc (normalizeUrl raw)) a).fonts →
      ciHttpStart u = true := by
  intro l
  induction l with
  | nil => intro a ha _ u hu; exact ha u hu
  | cons raw rest ih =>
    intro a ha hl u hu
    refine ih (classifyAdd inc a (normalizeUrl raw)) ?_
      (fun q hq => hl q (List.mem_cons_of_mem _ hq)) u hu
    intro v hv
    rcases classifyAdd_sub hv with h1 | h1
    · exact ha v h1
    · rw [h1]
      exact hl raw (List.mem_cons_self _ _)

/-- C9 amended.  Every URL the extractor emits (in any category) begins,
after `//`-normalization, with `http://` or `https://` up to ASCII letter
case — the regex is case insensitive, so upper-case scheme variants are
possible.  The fetcher's `^https?:\/\/` guard is case sensitive, so those
variants (see the counterexample) make its `Unsupported or local path`
branch reachable on extractor output; only for lower-case schemes is it
unreachable. -/
theorem c9_extractor_scheme_ci :
    ∀ (texts : List String) (inc : Flags) (u : String),
      u ∈ (extractAssetsFromFiles texts inc).js ++
        (extractAssetsFromFiles texts inc).css ++
        (extractAssetsFromFiles texts inc).images ++
        (extractAssetsFromFiles texts inc).fonts →
      ciHttpStart u = true := by
  intro texts inc
  suffices hgen : ∀ (ts : List String) (a : Assets),
      (∀ u, u ∈ a.js ++ a.css ++ a.images ++ a.fonts → ciHttpStart u = true) →
      ∀ u, u ∈ (ts.foldl (processText inc) a).js ++
        (ts.foldl (processText inc) a).css ++
        (ts.foldl (processText inc) a).images ++
        (ts.foldl (processText inc) a).fonts → ciHttpStart u = true by
    intro u hu
    exact hgen texts Assets.empty (by intro v hv; cases hv) u hu
  intro ts
  induction ts with
  | nil => intro a ha u hu; exact ha u hu
  | cons t rest ih =>
    intro a ha u hu
    refine ih (processText inc a t) ?_ u hu
    intro v hv
    refine foldl_classify_ci (matchAllUrls t) a ha ?_ v hv
    intro raw hraw
    simp only [matchAllUrls, List.mem_map] at hraw
    obtain ⟨cap, hcap, rfl⟩ := hraw
    obtain ⟨cs2, rest2, hm⟩ := scanAux_capture hcap
    exact matchAt_capture hm

/-- C9 amended witness: the property applied to the image URL extracted in
the C5 scenario. -/
theorem c9_extractor_scheme_ci_witness :
    ciHttpStart "https://cdn.example.com/a/b.png" = true :=
  c9_extractor_scheme_ci ["<img src=\"//cdn.example.com/a/b.png\">"]
    ⟨true, true, true, true⟩ "https://cdn.example.com/a/b.png" (by decide)

end SPZ
